import Mathlib

/-!
Shallow embedding of the calculator subsystem of the `learn-rust` repository
(`src/assignments/assignment04/{parser.rs, context.rs}`), together with the
reference definitions needed to check the specification's claims.

Numeric model: the Rust code computes with `f64`.  All operations exercised by
the claims (`+ - * /`, integer `powf`, the `== 0.0` guard) are exact on the
values involved, so `f64` is modelled by the exact rationals `ℚ`.  The
arithmetic is written via `Rat.divInt` so that every operation is
kernel-reducible (the `Rat.add`-style wrappers are irreducible); bridge lemmas
below prove the operations equal to Mathlib's field operations on `ℚ`.
-/

deriving instance DecidableEq for Except

/-- Addition on the numeric model (`left_val + right_val` in `context.rs`). -/
def qadd (a b : ℚ) : ℚ := Rat.divInt (a.num * b.den + b.num * a.den) (a.den * b.den)

/-- Subtraction on the numeric model (`left_val - right_val` in `context.rs`). -/
def qsub (a b : ℚ) : ℚ := Rat.divInt (a.num * b.den - b.num * a.den) (a.den * b.den)

/-- Multiplication on the numeric model (`left_val * right_val` in `context.rs`). -/
def qmul (a b : ℚ) : ℚ := Rat.divInt (a.num * b.num) (a.den * b.den)

/-- Division on the numeric model (`left_val / right_val` in `context.rs`;
only ever applied behind the `right_val == 0.0` guard). -/
def qdiv (a b : ℚ) : ℚ := Rat.divInt (a.num * b.den) (a.den * b.num)

/-- Natural-number power, `a * a * ... * a`. -/
def qnpow (a : ℚ) : ℕ → ℚ
  | 0 => 1
  | n + 1 => qmul a (qnpow a n)

/-- Multiplicative inverse on the numeric model (with `qinv 0 = 0`,
only ever used with a nonzero argument). -/
def qinv (a : ℚ) : ℚ := Rat.divInt a.den a.num

/-- Model of `f64::powf` (`left_val.powf(right_val)` in `context.rs`) under the
exact-rational number model: defined by repeated multiplication for integer
exponents, which are the only exponents any claim exercises.  A fractional
exponent generally has an irrational result, which `ℚ` cannot represent; such
exponents are mapped to a fixed default and are relied upon by no theorem
(both the embedded evaluator and the reference evaluator share this model, and
no claim compares `powf` against anything else on fractional input). -/
def qpowf (a b : ℚ) : ℚ :=
  if b.den = 1 then
    if 0 ≤ b.num then qnpow a b.num.toNat else qinv (qnpow a (-b.num).toNat)
  else 0

/-- The binary operators of the calculator language (`BinOp` in `syntax.rs`,
whose text is not in the sources; the enum is fixed by `parser.rs`'s
`rule_to_binop` and the spec's closed operator enum). -/
inductive BinOp : Type where
  | add
  | subtract
  | multiply
  | divide
  | power
deriving DecidableEq, Repr

/-- The expression AST (`Expression` in `syntax.rs`, fixed by its uses in
`parser.rs` and `context.rs` and by the spec's data model): numeric literal,
variable reference, or binary operation.  The constructor `var` plays the role
of the source's `Variable` (lowercased; `variable` is a Lean keyword). -/
inductive Expression : Type where
  | num (value : ℚ)
  | var (name : String)
  | binOp (op : BinOp) (lhs : Expression) (rhs : Expression)
deriving DecidableEq, Repr

/-- A parsed command (`Command` in `syntax.rs`): an optional explicit
binding name plus one expression.  The field `target` plays the role of the
source's `variable` field (the spec's name for it; `variable` is a Lean
keyword). -/
structure Command : Type where
  target : Option String
  expression : Expression
deriving DecidableEq, Repr

/-- Lookup in the binding table.  The source uses `HashMap<String, f64>`;
the model is an association list with the same `get`/`insert` observations. -/
def lookupVar : List (String × ℚ) → String → Option ℚ
  | [], _ => none
  | (k, v) :: t, n => if k = n then some v else lookupVar t n

/-- Insert-or-overwrite in the binding table (`HashMap::insert`). -/
def insertVar (k : String) (v : ℚ) : List (String × ℚ) → List (String × ℚ)
  | [] => [(k, v)]
  | (k', v') :: t => if k' = k then (k, v) :: t else (k', v') :: insertVar k v t

/-- The calculator's context (`Context` in `context.rs`): the anonymous-slot
counter and the variable bindings.  The field `vars` plays the role of the
source's `variables` field (`variables` is a reserved Lean token). -/
structure Ctx : Type where
  anonymous_counter : ℕ
  vars : List (String × ℚ)
deriving DecidableEq, Repr

/-- `Context::new()`: empty bindings, counter 0 (the `Default` derive). -/
def Ctx.new : Ctx := ⟨0, []⟩

/-- `Context::current_counter`. -/
def Ctx.current_counter (c : Ctx) : ℕ := c.anonymous_counter

/-- `Context::calc_expression` from `context.rs`: evaluates an expression
against the context's bindings.  Errors are the `anyhow` message strings the
source produces: `"undefined variable: {name}"` for a missing binding and
`"Error"` for the division-by-zero bail. -/
def calc_expression (c : Ctx) : Expression → Except String ℚ
  | .num n => .ok n
  | .var name =>
    match lookupVar c.vars name with
    | some v => .ok v
    | none => .error ("undefined variable: " ++ name)
  | .binOp op lhs rhs => do
    let left_val ← calc_expression c lhs
    let right_val ← calc_expression c rhs
    match op with
    | .add => .ok (qadd left_val right_val)
    | .subtract => .ok (qsub left_val right_val)
    | .multiply => .ok (qmul left_val right_val)
    | .divide =>
      if right_val = 0 then .error "Error" else .ok (qdiv left_val right_val)
    | .power => .ok (qpowf left_val right_val)

/-- `Context::calc_expression` with the receiver's state made explicit: the
method takes `&self`, so a call observationally maps a context before the call
to a context after the call; this definition threads that context through each
step of the body exactly as the call does, so that the frame property "the
context after equals the context before" is a statement, not a typing
convention. -/
def calc_expression_st (c : Ctx) : Expression → Except String ℚ × Ctx
  | .num n => (.ok n, c)
  | .var name =>
    (match lookupVar c.vars name with
     | some v => .ok v
     | none => .error ("undefined variable: " ++ name), c)
  | .binOp op lhs rhs =>
    match calc_expression_st c lhs with
    | (.error e, c') => (.error e, c')
    | (.ok left_val, c') =>
      match calc_expression_st c' rhs with
      | (.error e, c'') => (.error e, c'')
      | (.ok right_val, c'') =>
        (match op with
         | .add => .ok (qadd left_val right_val)
         | .subtract => .ok (qsub left_val right_val)
         | .multiply => .ok (qmul left_val right_val)
         | .divide =>
           if right_val = 0 then .error "Error" else .ok (qdiv left_val right_val)
         | .power => .ok (qpowf left_val right_val), c'')

/-- `Context::calc_command` from `context.rs`, in state-passing form (the
method takes `&mut self`).  Faithful to the source's order of effects: the
binding name is chosen first (and, on the anonymous path, the counter is
incremented at that point, before evaluation), then the expression is
evaluated, and only on success is the binding inserted. -/
def calc_command (c : Ctx) (command : Command) : Except String (String × ℚ) × Ctx :=
  let (result_str, c1) :=
    match command.target with
    | some x => (x, c)
    | none =>
      ("$" ++ Nat.repr c.anonymous_counter,
       { c with anonymous_counter := c.anonymous_counter + 1 })
  match calc_expression c1 command.expression with
  | .error e => (.error e, c1)
  | .ok result_exp =>
    (.ok (result_str, result_exp),
     { c1 with vars := insertVar result_str result_exp c1.vars })

/-- The tokens of the command grammar, as the spec's §4.1 lexical categories
(the grammar file `syntax.pest` is not in the sources). -/
inductive Tok : Type where
  | num (q : ℚ)
  | var (s : String)
  | op (o : BinOp)
  | lparen
  | rparen
  | eq
deriving DecidableEq, Repr

/-- Numeric value of a decimal digit. -/
def digitVal (c : Char) : ℕ := c.toNat - '0'.toNat

/-- Value of a digit string. -/
def digitsToNat (l : List Char) : ℕ := l.foldl (fun a c => 10 * a + digitVal c) 0

/-- Value of a numeric literal with integer digits `ds` and fractional digits
`fs` (`pair.as_str().parse::<f64>()` in `parser.rs`, exact on the grammar's
digit-string literals). -/
def numLit (ds fs : List Char) : ℚ :=
  mkRat (digitsToNat ds * 10 ^ fs.length + digitsToNat fs) (10 ^ fs.length)

/-- First character of an identifier. -/
def isIdentStart (c : Char) : Bool := c.isAlpha || c = '_'

/-- Subsequent character of an identifier. -/
def isIdentChar (c : Char) : Bool := c.isAlpha || c.isDigit || c = '_'

/-- Modelled from the spec: the lexical layer of the grammar (`syntax.pest` is
not in the sources).  Per §4.1: `number` is one or more digits with an
optional fractional part (no sign, no exponent); an identifier is an
alphanumeric token distinct from a number (per the spec's own examples,
underscores included); whitespace is insignificant between tokens; the literal
symbols are `+ - * / ^ ( ) =`.  Fuel-recursive; every step consumes at least
one character, so the wrapper's fuel suffices. -/
def tokenizeF : ℕ → List Char → Except String (List Tok)
  | 0, _ => .error "SyntaxError: tokenizer fuel exhausted"
  | _ + 1, [] => .ok []
  | f + 1, c :: cs =>
    if c = ' ' ∨ c = '\t' then tokenizeF f cs
    else if c.isDigit then
      let ds := (c :: cs).takeWhile Char.isDigit
      let rest := (c :: cs).dropWhile Char.isDigit
      match rest with
      | '.' :: d :: ds2 =>
        if d.isDigit then
          let fs := (d :: ds2).takeWhile Char.isDigit
          let rest2 := (d :: ds2).dropWhile Char.isDigit
          do
            let ts ← tokenizeF f rest2
            .ok (Tok.num (numLit ds fs) :: ts)
        else do
          let ts ← tokenizeF f rest
          .ok (Tok.num (numLit ds []) :: ts)
      | _ => do
        let ts ← tokenizeF f rest
        .ok (Tok.num (numLit ds []) :: ts)
    else if isIdentStart c then
      let name := (c :: cs).takeWhile isIdentChar
      let rest := (c :: cs).dropWhile isIdentChar
      do
        let ts ← tokenizeF f rest
        .ok (Tok.var (String.mk name) :: ts)
    else if c = '+' then do let ts ← tokenizeF f cs; .ok (Tok.op .add :: ts)
    else if c = '-' then do let ts ← tokenizeF f cs; .ok (Tok.op .subtract :: ts)
    else if c = '*' then do let ts ← tokenizeF f cs; .ok (Tok.op .multiply :: ts)
    else if c = '/' then do let ts ← tokenizeF f cs; .ok (Tok.op .divide :: ts)
    else if c = '^' then do let ts ← tokenizeF f cs; .ok (Tok.op .power :: ts)
    else if c = '(' then do let ts ← tokenizeF f cs; .ok (Tok.lparen :: ts)
    else if c = ')' then do let ts ← tokenizeF f cs; .ok (Tok.rparen :: ts)
    else if c = '=' then do let ts ← tokenizeF f cs; .ok (Tok.eq :: ts)
    else .error "SyntaxError: unexpected character"

/-- Tokenize an input line. -/
def tokenize (line : String) : Except String (List Tok) :=
  tokenizeF (line.length + 1) line.toList

mutual
/-- A primary of the pest parse tree for one `expr` rule: a number, a
variable, or a parenthesized sub-expression (which reappears as a nested
`expr` node, per `parse_primary` in `parser.rs`). -/
inductive PAtom : Type where
  | num (q : ℚ)
  | var (s : String)
  | paren (head : PAtom) (chain : PChain)

/-- The flat tail of an `expr` node's children: an alternating operator /
primary sequence (`atom op atom op atom ...`, as `parse_expr_pair` in
`parser.rs` describes the inner pairs of an `expr`). -/
inductive PChain : Type where
  | nil
  | cons (o : BinOp) (a : PAtom) (rest : PChain)
end

mutual
/-- Modelled from the spec: the parse-tree builder for one primary
(`syntax.pest` is not in the sources; §4.1 gives
`atom := number | identifier | "(" expr ")"`).  Fuel-recursive. -/
def pestAtomF : ℕ → List Tok → Except String (PAtom × List Tok)
  | 0, _ => .error "SyntaxError: parser fuel exhausted"
  | f + 1, ts =>
    match ts with
    | .num q :: rest => .ok (.num q, rest)
    | .var s :: rest => .ok (.var s, rest)
    | .lparen :: rest => do
      let (h, r1) ← pestAtomF f rest
      let (ch, r2) ← pestChainF f r1
      match r2 with
      | .rparen :: r3 => .ok (.paren h ch, r3)
      | _ => .error "SyntaxError: expected closing parenthesis"
    | _ => .error "SyntaxError: expected number, variable or parenthesized expression"

/-- Modelled from the spec: the parse-tree builder for the flat operator /
primary tail of one `expr` node (per §4.1's `expr` as a chain of atoms joined
by binary operators, and §4.3's flat operand/operator sequence). -/
def pestChainF : ℕ → List Tok → Except String (PChain × List Tok)
  | 0, _ => .error "SyntaxError: parser fuel exhausted"
  | f + 1, ts =>
    match ts with
    | .op o :: rest => do
      let (a, r1) ← pestAtomF f rest
      let (ch, r2) ← pestChainF f r1
      .ok (.cons o a ch, r2)
    | _ => .ok (.nil, ts)
end

/-- Modelled from the spec: parse one `expr` rule into its pest parse tree
(head primary plus flat operator/primary tail) and the remaining input. -/
def pestExprF (f : ℕ) (ts : List Tok) : Except String (PAtom × PChain × List Tok) := do
  let (a, r1) ← pestAtomF f ts
  let (ch, r2) ← pestChainF f r1
  .ok (a, ch, r2)

/-- Precedence tier of each operator, as configured by `climber()` in
`parser.rs`: `add`/`subtract` lowest, then `multiply`/`divide`, `power`
highest. -/
def opPrec : BinOp → ℕ
  | .add => 1
  | .subtract => 1
  | .multiply => 2
  | .divide => 2
  | .power => 3

/-- Associativity as configured by `climber()` in `parser.rs`: `power` is
right-associative, everything else left-associative. -/
def rightAssoc : BinOp → Bool
  | .power => true
  | _ => false

/-- Minimum precedence for the right-hand-side climb after consuming `o`:
one level higher for a left-associative operator, the same level for the
right-associative `power`. -/
def nextMin (o : BinOp) : ℕ := if rightAssoc o then opPrec o else opPrec o + 1

/-- Model of `pest::prec_climber::PrecClimber::climb` (external library code,
configured by `climber()` in `parser.rs`): standard operator-precedence
climbing over the flat sequence, with the primaries already interpreted.
Fuel-recursive; fuel exhaustion returns the pending state and is unreachable
from the wrapper, whose fuel exceeds the sequence length. -/
def climbRecF : ℕ → ℕ → Expression → List (BinOp × Expression) → Expression × List (BinOp × Expression)
  | 0, _, lhs, ps => (lhs, ps)
  | f + 1, minPrec, lhs, ps =>
    match ps with
    | [] => (lhs, [])
    | (o, a) :: rest =>
      if opPrec o < minPrec then (lhs, ps)
      else
        let (rhs, rest') := climbRecF f (nextMin o) a rest
        climbRecF f minPrec (.binOp o lhs rhs) rest'

/-- `climber().climb(...)` on one flat sequence. -/
def climb (lhs : Expression) (ps : List (BinOp × Expression)) : Expression :=
  (climbRecF (ps.length + 1) 0 lhs ps).1

mutual
/-- `parse_primary` from `parser.rs`: a number or variable leaf, or — for a
nested `expr` node — the climb of its inner pairs (the body of
`parse_expr_pair`, inlined here so the mutual recursion is structural;
`parse_expr_pair` below is the same function as a named wrapper). -/
def parse_primary : PAtom → Expression
  | .num q => .num q
  | .var s => .var s
  | .paren h ch => climb (parse_primary h) (chain_items ch)

/-- The `expr` node's operator/primary tail with primaries interpreted by
`parse_primary`. -/
def chain_items : PChain → List (BinOp × Expression)
  | .nil => []
  | .cons o a rest => (o, parse_primary a) :: chain_items rest
end

/-- `parse_expr_pair` from `parser.rs`: climb over the `expr` node's inner
pairs with `parse_primary` as the primary interpreter.  (The source climbs
with `parse_primary` applied lazily inside `climber.climb`; both are pure, so
interpreting the primaries first is the same function.  The source's error
paths — `rule_to_binop` on a non-operator rule, malformed `num` text — are
unreachable for grammar-produced trees, which the typed `PAtom`/`PChain`
representation makes intrinsic.) -/
def parse_expr_pair (h : PAtom) (ch : PChain) : Expression :=
  climb (parse_primary h) (chain_items ch)

/-- `parse_command` from `parser.rs`: tokenize the line, recognize the
optional `identifier "="` head (the grammar's `command := (identifier "=")?
expr`), parse the single `expr`, and require the whole line consumed. -/
def parse_command (line : String) : Except String Command := do
  let ts ← tokenize line
  match ts with
  | .var v :: .eq :: rest => do
    let (a, ch, r) ← pestExprF (2 * rest.length + 2) rest
    match r with
    | [] => .ok ⟨some v, parse_expr_pair a ch⟩
    | _ => .error "SyntaxError: unexpected trailing input"
  | _ => do
    let (a, ch, r) ← pestExprF (2 * ts.length + 2) ts
    match r with
    | [] => .ok ⟨none, parse_expr_pair a ch⟩
    | _ => .error "SyntaxError: unexpected trailing input"

/-- Reference grouping, `power` layer (spec §4.1: `power := atom ("^" power)?`,
right-associative by right recursion), applied to the flat operand/operator
sequence of one `expr` node: consume the maximal chain of `^`-joined operands
after `a` and return the grouped tree and the unconsumed tail.  The subtype
bound records that the tail is no longer than the input. -/
def buildP (a : Expression) (ps : List (BinOp × Expression)) :
    {r : Expression × List (BinOp × Expression) // r.2.length ≤ ps.length} :=
  match ps with
  | (o, b) :: rest =>
    if o = .power then
      let r1 := buildP b rest
      ⟨(.binOp o a r1.val.1, r1.val.2), le_trans r1.property (Nat.le_succ _)⟩
    else ⟨(a, (o, b) :: rest), Nat.le_refl _⟩
  | [] => ⟨(a, []), Nat.le_refl _⟩

/-- Reference grouping, iteration of the `term` layer (spec §4.1:
`term := power (("*"|"/") power)*`, grouping left): repeatedly consume a
`*`/`/` operator and its `power`-grouped right operand. -/
def buildTLoop (acc : Expression) (ps : List (BinOp × Expression)) :
    {r : Expression × List (BinOp × Expression) // r.2.length ≤ ps.length} :=
  match ps with
  | (o, b) :: rest =>
    if o = .multiply ∨ o = .divide then
      let r1 := buildP b rest
      let r2 := buildTLoop (.binOp o acc r1.val.1) r1.val.2
      ⟨r2.val, le_trans r2.property (le_trans r1.property (Nat.le_succ _))⟩
    else ⟨(acc, (o, b) :: rest), Nat.le_refl _⟩
  | [] => ⟨(acc, []), Nat.le_refl _⟩
termination_by ps.length
decreasing_by
  exact Nat.lt_succ_of_le (buildP b rest).property

/-- Reference grouping, `term` layer: a `power` followed by the `term`
iteration. -/
def buildTB (a : Expression) (ps : List (BinOp × Expression)) :
    {r : Expression × List (BinOp × Expression) // r.2.length ≤ ps.length} :=
  let r1 := buildP a ps
  let r2 := buildTLoop r1.val.1 r1.val.2
  ⟨r2.val, r2.property.trans r1.property⟩

/-- Reference grouping, iteration of the `expr` layer (spec §4.1:
`expr := term (("+"|"-") term)*`, grouping left). -/
def buildELoop (acc : Expression) (ps : List (BinOp × Expression)) :
    {r : Expression × List (BinOp × Expression) // r.2.length ≤ ps.length} :=
  match ps with
  | (o, b) :: rest =>
    if o = .add ∨ o = .subtract then
      let r1 := buildTB b rest
      let r2 := buildELoop (.binOp o acc r1.val.1) r1.val.2
      ⟨r2.val, le_trans r2.property (le_trans r1.property (Nat.le_succ _))⟩
    else ⟨(acc, (o, b) :: rest), Nat.le_refl _⟩
  | [] => ⟨(acc, []), Nat.le_refl _⟩
termination_by ps.length
decreasing_by
  exact Nat.lt_succ_of_le (buildTB b rest).property

/-- Reference grouping, `expr` layer: a `term` followed by the `expr`
iteration. -/
def buildEB (a : Expression) (ps : List (BinOp × Expression)) :
    {r : Expression × List (BinOp × Expression) // r.2.length ≤ ps.length} :=
  let r1 := buildTB a ps
  let r2 := buildELoop r1.val.1 r1.val.2
  ⟨r2.val, r2.property.trans r1.property⟩

/-- The reference grouping of one flat operand/operator sequence, per the
spec's layered EBNF (§4.1) with conventional precedence
(`{+,-} < {*,/} < {^}`) and associativity (`^` right, the rest left). -/
def buildExpr (a : Expression) (ps : List (BinOp × Expression)) : Expression :=
  (buildEB a ps).val.1

mutual
/-- Reference interpretation of one primary: like `parse_primary`, but a
nested `expr` node is grouped by the spec's layered EBNF (`buildExpr`) instead
of the source's precedence climber. -/
def spec_primary : PAtom → Expression
  | .num q => .num q
  | .var s => .var s
  | .paren h ch => buildExpr (spec_primary h) (spec_chain_items ch)

/-- The `expr` node's operator/primary tail with primaries interpreted by
`spec_primary`. -/
def spec_chain_items : PChain → List (BinOp × Expression)
  | .nil => []
  | .cons o a rest => (o, spec_primary a) :: spec_chain_items rest
end

/-- Reference interpretation of one `expr` node. -/
def spec_expr (h : PAtom) (ch : PChain) : Expression :=
  buildExpr (spec_primary h) (spec_chain_items ch)

/-- Reference arithmetic evaluator on ASTs (spec §8's oracle): standard
arithmetic under the shared numeric model, failing on any variable (the
oracle handles variable-free expressions only) and on division by zero, with
the same error text as the embedded evaluator so results are comparable. -/
def evalArith : Expression → Except String ℚ
  | .num n => .ok n
  | .var name => .error ("undefined variable: " ++ name)
  | .binOp op lhs rhs => do
    let l ← evalArith lhs
    let r ← evalArith rhs
    match op with
    | .add => .ok (qadd l r)
    | .subtract => .ok (qsub l r)
    | .multiply => .ok (qmul l r)
    | .divide => if r = 0 then .error "Error" else .ok (qdiv l r)
    | .power => .ok (qpowf l r)

/-- An expression contains no variables. -/
def varFree : Expression → Bool
  | .num _ => true
  | .var _ => false
  | .binOp _ lhs rhs => varFree lhs && varFree rhs

/-- The embedded pipeline on one expression line: parse with the source's
parser, evaluate the resulting AST with `calc_expression` on a fresh
context. -/
def evalLine (line : String) : Except String ℚ := do
  let cmd ← parse_command line
  calc_expression Ctx.new cmd.expression

/-- The reference infix evaluator on one expression line: same token and
parse-tree layer (the expression being evaluated is the same), but grouping
per the spec's layered EBNF and evaluation by the reference arithmetic
evaluator. -/
def refEval (line : String) : Except String ℚ := do
  let ts ← tokenize line
  let (a, ch, r) ← pestExprF (2 * ts.length + 2) ts
  match r with
  | [] => evalArith (spec_expr a ch)
  | _ => .error "SyntaxError: unexpected trailing input"

/-- One session step: parse a line and apply the command to the context
(a failed parse leaves the context untouched, as the front end never calls
`calc_command`). -/
def apply_line (c : Ctx) (line : String) : Except String (String × ℚ) × Ctx :=
  match parse_command line with
  | .error e => (.error e, c)
  | .ok cmd => calc_command c cmd

/-- The binding name `calc_command` chooses for a command in a context: the
explicit target if present, else `"$" ++ counter`. -/
def chosen_name (c : Ctx) (command : Command) : String :=
  match command.target with
  | some x => x
  | none => "$" ++ Nat.repr c.anonymous_counter

/-- The flat sequence does not start with a `^` pair. -/
def headNotPow : List (BinOp × Expression) → Prop
  | (o, _) :: _ => o ≠ .power
  | [] => True

/-- The flat sequence starts with a `+`/`-` pair, if nonempty. -/
def headLow : List (BinOp × Expression) → Prop
  | (o, _) :: _ => o = .add ∨ o = .subtract
  | [] => True

/-- The model's addition is rational addition. -/
theorem qadd_eq (a b : ℚ) : qadd a b = a + b := by
  rw [qadd]
  conv_rhs => rw [← Rat.num_divInt_den a, ← Rat.num_divInt_den b]
  rw [Rat.divInt_add_divInt _ _ (by exact_mod_cast a.den_nz) (by exact_mod_cast b.den_nz)]

/-- The model's subtraction is rational subtraction. -/
theorem qsub_eq (a b : ℚ) : qsub a b = a - b := by
  rw [qsub]
  conv_rhs => rw [← Rat.num_divInt_den a, ← Rat.num_divInt_den b]
  rw [Rat.divInt_sub_divInt _ _ (by exact_mod_cast a.den_nz) (by exact_mod_cast b.den_nz)]

/-- The model's multiplication is rational multiplication. -/
theorem qmul_eq (a b : ℚ) : qmul a b = a * b := by
  rw [qmul]
  conv_rhs => rw [← Rat.num_divInt_den a, ← Rat.num_divInt_den b]
  rw [Rat.divInt_mul_divInt']

/-- The model's division is rational division. -/
theorem qdiv_eq (a b : ℚ) : qdiv a b = a / b := by
  rw [qdiv]
  conv_rhs => rw [← Rat.num_divInt_den a, ← Rat.num_divInt_den b]
  rw [Rat.divInt_div_divInt]

/-- The model's inverse is the rational inverse. -/
theorem qinv_eq (a : ℚ) : qinv a = a⁻¹ := by
  rw [qinv]
  conv_rhs => rw [← Rat.num_divInt_den a]
  rw [Rat.inv_divInt']

/-- The model's natural power is the rational power. -/
theorem qnpow_eq (a : ℚ) (n : ℕ) : qnpow a n = a ^ n := by
  induction n with
  | zero => rw [qnpow, pow_zero]
  | succ n ih => rw [qnpow, qmul_eq, ih, pow_succ, mul_comm]

/-- On an integer exponent, the `powf` model is the rational integer power. -/
theorem qpowf_intCast (a : ℚ) (m : ℤ) : qpowf a (m : ℚ) = a ^ m := by
  rw [qpowf, Rat.den_intCast, Rat.num_intCast, if_pos rfl]
  by_cases h : 0 ≤ m
  · rw [if_pos h, qnpow_eq, ← zpow_natCast, Int.toNat_of_nonneg h]
  · rw [if_neg h, qinv_eq, qnpow_eq, ← zpow_natCast,
      Int.toNat_of_nonneg (by omega : 0 ≤ -m), zpow_neg, inv_inv]

/-- `calc_expression` reads only the bindings: the counter is irrelevant. -/
theorem calc_expression_vars_only (c c' : Ctx) (h : c.vars = c'.vars) (e : Expression) :
    calc_expression c e = calc_expression c' e := by
  induction e with
  | num n => rfl
  | var name => rw [calc_expression, calc_expression, h]
  | binOp op lhs rhs ihl ihr => rw [calc_expression, calc_expression, ihl, ihr]

/-- The state-explicit evaluator returns the plain evaluator's result and
passes the context through unchanged. -/
theorem calc_expression_st_eq (c : Ctx) (e : Expression) :
    calc_expression_st c e = (calc_expression c e, c) := by
  induction e generalizing c with
  | num n => rfl
  | var name => rfl
  | binOp op lhs rhs ihl ihr =>
    rw [calc_expression_st, calc_expression]
    simp only [ihl, ihr]
    cases hl : calc_expression c lhs with
    | error e => rfl
    | ok lv =>
      cases hr : calc_expression c rhs with
      | error e =>
        simp only [hr]
        rfl
      | ok rv =>
        simp only [hr]
        rfl

/-- On a variable-free expression, `calc_expression` coincides with the
reference arithmetic evaluator, for every context. -/
theorem calc_eq_evalArith (c : Ctx) (e : Expression) (h : varFree e = true) :
    calc_expression c e = evalArith e := by
  induction e with
  | num n => rfl
  | var name => exact absurd h (by rw [varFree]; exact Bool.false_ne_true)
  | binOp op lhs rhs ihl ihr =>
    rw [varFree, Bool.and_eq_true] at h
    rw [calc_expression, evalArith, ihl h.1, ihr h.2]

/-- Every operator's tier is at least 1. -/
theorem opPrec_pos (o : BinOp) : 1 ≤ opPrec o := by
  cases o <;> simp [opPrec]

/-- Every operator except `^` sits below tier 3. -/
theorem opPrec_lt_three (o : BinOp) (h : o ≠ BinOp.power) : opPrec o < 3 := by
  cases o <;> simp_all [opPrec]

/-- A sequence starting with a `+`/`-` pair does not start with a `^` pair. -/
theorem headLow_notPow (ps : List (BinOp × Expression)) (h : headLow ps) : headNotPow ps := by
  cases ps with
  | nil => trivial
  | cons p t =>
    obtain ⟨o, b⟩ := p
    cases h with
    | inl h1 => rw [h1]; intro hc; cases hc
    | inr h1 => rw [h1]; intro hc; cases hc

/-- The climber halts when the next operator binds below the minimum. -/
theorem climbRecF_halt (f m : ℕ) (a : Expression) (ps : List (BinOp × Expression))
    (h : ∀ o b t, ps = (o, b) :: t → opPrec o < m) :
    climbRecF f m a ps = (a, ps) := by
  cases f with
  | zero => rfl
  | succ f =>
    cases ps with
    | nil => rfl
    | cons p t =>
      obtain ⟨o, b⟩ := p
      simp only [climbRecF]
      rw [if_pos (h o b t rfl)]

/-- The `power` layer's remainder does not start with `^`. -/
theorem buildP_head (a : Expression) (ps : List (BinOp × Expression)) :
    headNotPow (buildP a ps).val.2 := by
  induction ps generalizing a with
  | nil => trivial
  | cons p rest ih =>
    obtain ⟨o, b⟩ := p
    by_cases ho : o = BinOp.power
    · subst ho
      rw [buildP, if_pos rfl]
      exact ih b
    · rw [buildP, if_neg ho]
      exact ho

/-- The `power` layer is the identity when the head is not `^`. -/
theorem buildP_halt (a : Expression) (ps : List (BinOp × Expression)) (h : headNotPow ps) :
    (buildP a ps).val = (a, ps) := by
  cases ps with
  | nil => rfl
  | cons p t =>
    obtain ⟨o, b⟩ := p
    have h' : o ≠ BinOp.power := h
    rw [buildP, if_neg h']

/-- The `term` iteration is the identity when the head is a `+`/`-` pair. -/
theorem buildTLoop_halt (x : Expression) (ps : List (BinOp × Expression)) (h : headLow ps) :
    (buildTLoop x ps).val = (x, ps) := by
  cases ps with
  | nil => simp [buildTLoop]
  | cons p t =>
    obtain ⟨o, b⟩ := p
    have h' : ¬(o = BinOp.multiply ∨ o = BinOp.divide) := by
      cases h with
      | inl h1 => rw [h1]; intro hc; rcases hc with hc | hc <;> cases hc
      | inr h1 => rw [h1]; intro hc; rcases hc with hc | hc <;> cases hc
    rw [buildTLoop, if_neg h']

/-- The `term` iteration's remainder starts with `+`/`-` (or is empty), as
long as the input does not start with `^`. -/
theorem buildTLoop_headN (n : ℕ) : ∀ (x : Expression) (ps : List (BinOp × Expression)),
    ps.length ≤ n → headNotPow ps → headLow (buildTLoop x ps).val.2 := by
  induction n with
  | zero =>
    intro x ps hl _
    have : ps = [] := List.length_eq_zero.mp (Nat.le_zero.mp hl)
    subst this
    simp [buildTLoop]
    trivial
  | succ n ih =>
    intro x ps hl hn
    cases ps with
    | nil =>
      simp [buildTLoop]
      trivial
    | cons p t =>
      obtain ⟨o, b⟩ := p
      cases o with
      | multiply =>
        rw [buildTLoop, if_pos (Or.inl rfl)]
        exact ih _ _ (by
          have := (buildP b t).property
          simp only [List.length_cons] at hl
          omega) (buildP_head b t)
      | divide =>
        rw [buildTLoop, if_pos (Or.inr rfl)]
        exact ih _ _ (by
          have := (buildP b t).property
          simp only [List.length_cons] at hl
          omega) (buildP_head b t)
      | add =>
        rw [buildTLoop_halt x ((BinOp.add, b) :: t)
          (show headLow ((BinOp.add, b) :: t) from Or.inl rfl)]
        exact Or.inl rfl
      | subtract =>
        rw [buildTLoop_halt x ((BinOp.subtract, b) :: t)
          (show headLow ((BinOp.subtract, b) :: t) from Or.inr rfl)]
        exact Or.inr rfl
      | power => exact absurd rfl hn

/-- The `term` layer's remainder starts with `+`/`-` (or is empty). -/
theorem buildTB_head (a : Expression) (ps : List (BinOp × Expression)) :
    headLow (buildTB a ps).val.2 := by
  rw [buildTB]
  exact buildTLoop_headN (buildP a ps).val.2.length _ _ (Nat.le_refl _) (buildP_head a ps)

/-- At minimum precedence 3 the climber is exactly the EBNF `power` layer. -/
theorem climb_pow (f : ℕ) : ∀ (a : Expression) (ps : List (BinOp × Expression)),
    ps.length < f → climbRecF f 3 a ps = (buildP a ps).val := by
  induction f with
  | zero => intro a ps h; exact absurd h (Nat.not_lt_zero _)
  | succ f ih =>
    intro a ps h
    cases ps with
    | nil => simp [climbRecF, buildP]
    | cons p rest =>
      obtain ⟨o, b⟩ := p
      by_cases ho : o = BinOp.power
      · subst ho
        simp only [climbRecF]
        rw [if_neg (by simp [opPrec])]
        have hnm : nextMin BinOp.power = 3 := rfl
        rw [hnm, ih b rest (by simp only [List.length_cons] at h; omega)]
        rw [climbRecF_halt f 3 _ _ (by
          intro o' b' t' ht'
          have hh := buildP_head b rest
          rw [ht'] at hh
          exact opPrec_lt_three o' hh)]
        rw [buildP, if_pos rfl]
      · rw [climbRecF_halt (f + 1) 3 a _ (by
          intro o' b' t' ht'
          cases ht'
          exact opPrec_lt_three o ho)]
        rw [buildP_halt a ((o, b) :: rest) (show headNotPow ((o, b) :: rest) from ho)]

/-- At minimum precedence 2, on a sequence not starting with `^`, the climber
is exactly the EBNF `term` iteration. -/
theorem climb_termloop (f : ℕ) : ∀ (x : Expression) (ps : List (BinOp × Expression)),
    ps.length < f → headNotPow ps → climbRecF f 2 x ps = (buildTLoop x ps).val := by
  induction f with
  | zero => intro x ps h _; exact absurd h (Nat.not_lt_zero _)
  | succ f ih =>
    intro x ps h hnp
    cases ps with
    | nil => simp [climbRecF, buildTLoop]
    | cons p rest =>
      obtain ⟨o, b⟩ := p
      have hlen : rest.length < f := by simp only [List.length_cons] at h; omega
      have hlen2 : (buildP b rest).val.2.length < f :=
        Nat.lt_of_le_of_lt (buildP b rest).property hlen
      cases o with
      | multiply =>
        simp only [climbRecF]
        rw [if_neg (by simp [opPrec])]
        simp only [nextMin, rightAssoc, opPrec, Bool.false_eq_true, if_false]
        rw [climb_pow f b rest hlen]
        rw [ih (.binOp .multiply x (buildP b rest).val.1) (buildP b rest).val.2 hlen2
          (buildP_head b rest)]
        simp [buildTLoop]
      | divide =>
        simp only [climbRecF]
        rw [if_neg (by simp [opPrec])]
        simp only [nextMin, rightAssoc, opPrec, Bool.false_eq_true, if_false]
        rw [climb_pow f b rest hlen]
        rw [ih (.binOp .divide x (buildP b rest).val.1) (buildP b rest).val.2 hlen2
          (buildP_head b rest)]
        simp [buildTLoop]
      | add =>
        rw [climbRecF_halt (f + 1) 2 x _ (by
          intro o' b' t' ht'
          cases ht'
          simp [opPrec])]
        rw [buildTLoop_halt x ((BinOp.add, b) :: rest)
          (show headLow ((BinOp.add, b) :: rest) from Or.inl rfl)]
      | subtract =>
        rw [climbRecF_halt (f + 1) 2 x _ (by
          intro o' b' t' ht'
          cases ht'
          simp [opPrec])]
        rw [buildTLoop_halt x ((BinOp.subtract, b) :: rest)
          (show headLow ((BinOp.subtract, b) :: rest) from Or.inr rfl)]
      | power => exact absurd rfl hnp

/-- Unfolding of the `term` layer's composition. -/
theorem buildTB_val (a : Expression) (ps : List (BinOp × Expression)) :
    (buildTB a ps).val = (buildTLoop (buildP a ps).val.1 (buildP a ps).val.2).val := rfl

/-- Unfolding of the `expr` layer's composition. -/
theorem buildEB_val (a : Expression) (ps : List (BinOp × Expression)) :
    (buildEB a ps).val = (buildELoop (buildTB a ps).val.1 (buildTB a ps).val.2).val := rfl

/-- At minimum precedence 2 the climber is exactly the EBNF `term` layer. -/
theorem climb_term (f : ℕ) : ∀ (a : Expression) (ps : List (BinOp × Expression)),
    ps.length < f → climbRecF f 2 a ps = (buildTB a ps).val := by
  intro a ps h
  cases f with
  | zero => exact absurd h (Nat.not_lt_zero _)
  | succ f =>
    cases ps with
    | nil => simp [climbRecF, buildTB, buildP, buildTLoop]
    | cons p rest =>
      obtain ⟨o, b⟩ := p
      have hlen : rest.length < f := by simp only [List.length_cons] at h; omega
      have hlen2 : (buildP b rest).val.2.length < f :=
        Nat.lt_of_le_of_lt (buildP b rest).property hlen
      by_cases ho : o = BinOp.power
      · subst ho
        simp only [climbRecF]
        rw [if_neg (by simp [opPrec])]
        simp only [nextMin, rightAssoc, opPrec, if_true]
        rw [climb_pow f b rest hlen]
        rw [climb_termloop f (.binOp .power a (buildP b rest).val.1) (buildP b rest).val.2
          hlen2 (buildP_head b rest)]
        simp [buildTB, buildP]
      · rw [climb_termloop (f + 1) a ((o, b) :: rest) h
          (show headNotPow ((o, b) :: rest) from ho)]
        rw [buildTB_val,
          buildP_halt a ((o, b) :: rest) (show headNotPow ((o, b) :: rest) from ho)]

/-- The `term` iteration on an empty sequence. -/
theorem buildTLoop_nil (x : Expression) : (buildTLoop x []).val = (x, []) := by
  rw [buildTLoop]

/-- The `expr` iteration on an empty sequence. -/
theorem buildELoop_nil (x : Expression) : (buildELoop x []).val = (x, []) := by
  rw [buildELoop]

/-- One consuming step of the `term` iteration. -/
theorem buildTLoop_step (x : Expression) (o : BinOp) (b : Expression)
    (rest : List (BinOp × Expression)) (h : o = BinOp.multiply ∨ o = BinOp.divide) :
    (buildTLoop x ((o, b) :: rest)).val =
    (buildTLoop (.binOp o x (buildP b rest).val.1) (buildP b rest).val.2).val := by
  rw [buildTLoop, if_pos h]

/-- One consuming step of the `expr` iteration. -/
theorem buildELoop_step (x : Expression) (o : BinOp) (b : Expression)
    (rest : List (BinOp × Expression)) (h : o = BinOp.add ∨ o = BinOp.subtract) :
    (buildELoop x ((o, b) :: rest)).val =
    (buildELoop (.binOp o x (buildTB b rest).val.1) (buildTB b rest).val.2).val := by
  rw [buildELoop, if_pos h]

/-- At minimum precedence 1, on a sequence not starting with `^`, the climber
is exactly the EBNF `term` iteration followed by the `expr` iteration. -/
theorem climb_exprloop (f : ℕ) : ∀ (x : Expression) (ps : List (BinOp × Expression)),
    ps.length < f → headNotPow ps →
    climbRecF f 1 x ps = (buildELoop (buildTLoop x ps).val.1 (buildTLoop x ps).val.2).val := by
  induction f with
  | zero => intro x ps h _; exact absurd h (Nat.not_lt_zero _)
  | succ f ih =>
    intro x ps h hnp
    cases ps with
    | nil =>
      simp only [climbRecF]
      rw [buildTLoop_nil x]
      show (x, []) = (buildELoop x []).val
      rw [buildELoop_nil x]
    | cons p rest =>
      obtain ⟨o, b⟩ := p
      have hlen : rest.length < f := by simp only [List.length_cons] at h; omega
      cases o with
      | multiply =>
        have hlen2 : (buildP b rest).val.2.length < f :=
          Nat.lt_of_le_of_lt (buildP b rest).property hlen
        simp only [climbRecF]
        rw [if_neg (by simp [opPrec])]
        simp only [nextMin, rightAssoc, opPrec, Bool.false_eq_true, if_false]
        rw [climb_pow f b rest hlen]
        rw [ih (.binOp .multiply x (buildP b rest).val.1) (buildP b rest).val.2 hlen2
          (buildP_head b rest)]
        rw [buildTLoop_step x BinOp.multiply b rest (Or.inl rfl)]
      | divide =>
        have hlen2 : (buildP b rest).val.2.length < f :=
          Nat.lt_of_le_of_lt (buildP b rest).property hlen
        simp only [climbRecF]
        rw [if_neg (by simp [opPrec])]
        simp only [nextMin, rightAssoc, opPrec, Bool.false_eq_true, if_false]
        rw [climb_pow f b rest hlen]
        rw [ih (.binOp .divide x (buildP b rest).val.1) (buildP b rest).val.2 hlen2
          (buildP_head b rest)]
        rw [buildTLoop_step x BinOp.divide b rest (Or.inr rfl)]
      | add =>
        have hlen2 : (buildTB b rest).val.2.length < f :=
          Nat.lt_of_le_of_lt (buildTB b rest).property hlen
        simp only [climbRecF]
        rw [if_neg (by simp [opPrec])]
        simp only [nextMin, rightAssoc, opPrec, Bool.false_eq_true, if_false]
        rw [climb_term f b rest hlen]
        rw [ih (.binOp .add x (buildTB b rest).val.1) (buildTB b rest).val.2 hlen2
          (headLow_notPow _ (buildTB_head b rest))]
        rw [buildTLoop_halt (.binOp .add x (buildTB b rest).val.1) (buildTB b rest).val.2
          (buildTB_head b rest)]
        rw [buildTLoop_halt x ((BinOp.add, b) :: rest)
          (show headLow ((BinOp.add, b) :: rest) from Or.inl rfl)]
        simp [buildELoop]
      | subtract =>
        have hlen2 : (buildTB b rest).val.2.length < f :=
          Nat.lt_of_le_of_lt (buildTB b rest).property hlen
        simp only [climbRecF]
        rw [if_neg (by simp [opPrec])]
        simp only [nextMin, rightAssoc, opPrec, Bool.false_eq_true, if_false]
        rw [climb_term f b rest hlen]
        rw [ih (.binOp .subtract x (buildTB b rest).val.1) (buildTB b rest).val.2 hlen2
          (headLow_notPow _ (buildTB_head b rest))]
        rw [buildTLoop_halt (.binOp .subtract x (buildTB b rest).val.1) (buildTB b rest).val.2
          (buildTB_head b rest)]
        rw [buildTLoop_halt x ((BinOp.subtract, b) :: rest)
          (show headLow ((BinOp.subtract, b) :: rest) from Or.inr rfl)]
        simp [buildELoop]
      | power => exact absurd rfl hnp

/-- At minimum precedence 1 the climber is exactly the EBNF `expr` layer. -/
theorem climb_expr (f : ℕ) : ∀ (a : Expression) (ps : List (BinOp × Expression)),
    ps.length < f → climbRecF f 1 a ps = (buildEB a ps).val := by
  intro a ps h
  cases f with
  | zero => exact absurd h (Nat.not_lt_zero _)
  | succ f =>
    cases ps with
    | nil =>
      simp only [climbRecF]
      rw [buildEB_val, buildTB_val]
      rw [show (buildP a []).val = (a, []) from rfl]
      show (a, []) = (buildELoop (buildTLoop a []).val.1 (buildTLoop a []).val.2).val
      rw [buildTLoop_nil a]
      show (a, []) = (buildELoop a []).val
      rw [buildELoop_nil a]
    | cons p rest =>
      obtain ⟨o, b⟩ := p
      have hlen : rest.length < f := by simp only [List.length_cons] at h; omega
      by_cases ho : o = BinOp.power
      · subst ho
        have hlen2 : (buildP b rest).val.2.length < f :=
          Nat.lt_of_le_of_lt (buildP b rest).property hlen
        simp only [climbRecF]
        rw [if_neg (by simp [opPrec])]
        simp only [nextMin, rightAssoc, opPrec, if_true]
        rw [climb_pow f b rest hlen]
        rw [climb_exprloop f (.binOp .power a (buildP b rest).val.1) (buildP b rest).val.2
          hlen2 (buildP_head b rest)]
        rw [buildEB_val, buildTB_val]
        rw [show (buildP a ((BinOp.power, b) :: rest)).val =
          (.binOp .power a (buildP b rest).val.1, (buildP b rest).val.2) from by
          rw [buildP, if_pos rfl]]
      · rw [climb_exprloop (f + 1) a ((o, b) :: rest) h
          (show headNotPow ((o, b) :: rest) from ho)]
        rw [buildEB_val, buildTB_val,
          buildP_halt a ((o, b) :: rest) (show headNotPow ((o, b) :: rest) from ho)]

/-- Minimum precedences 0 and 1 climb identically (every tier is at least 1). -/
theorem climb_zero_one (f : ℕ) : ∀ (a : Expression) (ps : List (BinOp × Expression)),
    climbRecF f 0 a ps = climbRecF f 1 a ps := by
  induction f with
  | zero => intro a ps; rfl
  | succ f ih =>
    intro a ps
    cases ps with
    | nil => rfl
    | cons p rest =>
      obtain ⟨o, b⟩ := p
      simp only [climbRecF]
      rw [if_neg (Nat.not_lt_zero _), if_neg (by have := opPrec_pos o; omega)]
      exact ih _ _

/-- The source's precedence climber produces exactly the tree demanded by the
spec's layered EBNF with conventional precedence and associativity. -/
theorem climb_eq_buildExpr (a : Expression) (ps : List (BinOp × Expression)) :
    climb a ps = buildExpr a ps := by
  rw [climb, buildExpr, climb_zero_one, climb_expr (ps.length + 1) a ps (Nat.lt_succ_self _)]

mutual
/-- The source's primary interpreter and the reference interpreter agree on
every parse-tree primary. -/
theorem parse_primary_eq_spec : ∀ (a : PAtom), parse_primary a = spec_primary a
  | .num q => rfl
  | .var s => rfl
  | .paren h ch => by
    rw [parse_primary, spec_primary, parse_primary_eq_spec h, chain_items_eq_spec ch,
      climb_eq_buildExpr]

/-- The interpreted operator/primary tails agree on every parse-tree chain. -/
theorem chain_items_eq_spec : ∀ (ch : PChain), chain_items ch = spec_chain_items ch
  | .nil => rfl
  | .cons o a rest => by
    rw [chain_items, spec_chain_items, parse_primary_eq_spec a, chain_items_eq_spec rest]
end

/-- The source's parser and the spec's layered EBNF produce identical trees
for every `expr` node. -/
theorem parse_expr_pair_eq_spec (h : PAtom) (ch : PChain) :
    parse_expr_pair h ch = spec_expr h ch := by
  rw [parse_expr_pair, spec_expr, parse_primary_eq_spec, chain_items_eq_spec,
    climb_eq_buildExpr]

/-- Bind on a success is application. -/
theorem exceptOkBind {α β : Type} (a : α) (k : α → Except String β) :
    (Except.ok a >>= k) = k a := rfl

/-- Inversion of a successful bind. -/
theorem exceptBindOk {α β : Type} (x : Except String α) (k : α → Except String β) (b : β)
    (h : (x >>= k) = .ok b) : ∃ a, x = .ok a ∧ k a = .ok b := by
  cases x with
  | error e => exact Except.noConfusion h
  | ok a => exact ⟨a, rfl, h⟩

/-- C1: for every valid arithmetic expression line containing no variables,
parsing the line and evaluating the resulting AST with `calc_expression`
yields the same value as the reference infix evaluator with conventional
precedence (`{+,-} < {*,/} < {^}`) and associativity (`^` right-associative,
the rest left-associative); in particular `"1 + 2 * 3"` evaluates to 7,
`"1 - 2 - 3"` to -4, and `"2 ^ 3 ^ 2"` to 512. -/
theorem C1_parse_eval_matches_reference_infix (line : String) (cmd : Command) (c : Ctx)
    (v : ℚ) (hp : parse_command line = .ok cmd) (ht : cmd.target = none)
    (hv : varFree cmd.expression = true) :
    (calc_expression c cmd.expression = .ok v ↔ refEval line = .ok v) ∧
    evalLine "1 + 2 * 3" = .ok 7 ∧
    evalLine "1 - 2 - 3" = .ok (-4) ∧
    evalLine "2 ^ 3 ^ 2" = .ok 512 := by
  refine ⟨?_, by decide, by decide, by decide⟩
  rw [parse_command] at hp
  obtain ⟨ts, htk, hp⟩ := exceptBindOk _ _ _ hp
  simp only [] at hp
  split at hp
  · rename_i v' rest
    obtain ⟨⟨a, ch, r⟩, hpe, hp⟩ := exceptBindOk _ _ _ hp
    simp only [] at hp
    split at hp
    · cases hp
      exact Option.noConfusion ht
    · exact Except.noConfusion hp
  · obtain ⟨⟨a, ch, r⟩, hpe, hp⟩ := exceptBindOk _ _ _ hp
    simp only [] at hp
    split at hp
    · cases hp
      have hcalc : calc_expression c (parse_expr_pair a ch) = evalArith (spec_expr a ch) := by
        rw [calc_eq_evalArith c _ hv, parse_expr_pair_eq_spec]
      have href : refEval line = evalArith (spec_expr a ch) := by
        rw [refEval, htk, exceptOkBind, hpe, exceptOkBind]
      rw [hcalc, href]
    · exact Except.noConfusion hp

/-- Witness for C1 at the line `"1 + 2 * 3"` with value 7. -/
theorem C1_witness :
    parse_command "1 + 2 * 3" =
      .ok ⟨none, .binOp .add (.num 1) (.binOp .multiply (.num 2) (.num 3))⟩ ∧
    ((calc_expression Ctx.new
        (.binOp .add (.num 1) (.binOp .multiply (.num 2) (.num 3))) = .ok 7 ↔
      refEval "1 + 2 * 3" = .ok 7) ∧
     evalLine "1 + 2 * 3" = .ok 7 ∧
     evalLine "1 - 2 - 3" = .ok (-4) ∧
     evalLine "2 ^ 3 ^ 2" = .ok 512) :=
  ⟨by decide,
   C1_parse_eval_matches_reference_infix "1 + 2 * 3"
     ⟨none, .binOp .add (.num 1) (.binOp .multiply (.num 2) (.num 3))⟩ Ctx.new 7
     (by decide) rfl (by decide)⟩

/-- C2: from a fresh context, the three target-less commands `"3 + 5"`,
`"1 + 1"`, `"2 * 2"` create bindings `$0`, `$1`, `$2` with values 8, 2, 4,
and each call returns the corresponding pair. -/
theorem C2_auto_naming_sequence :
    apply_line Ctx.new "3 + 5" = (.ok ("$0", 8), ⟨1, [("$0", 8)]⟩) ∧
    apply_line ⟨1, [("$0", 8)]⟩ "1 + 1" = (.ok ("$1", 2), ⟨2, [("$0", 8), ("$1", 2)]⟩) ∧
    apply_line ⟨2, [("$0", 8), ("$1", 2)]⟩ "2 * 2" =
      (.ok ("$2", 4), ⟨3, [("$0", 8), ("$1", 2), ("$2", 4)]⟩) ∧
    lookupVar [("$0", 8), ("$1", 2), ("$2", 4)] "$0" = some 8 ∧
    lookupVar [("$0", 8), ("$1", 2), ("$2", 4)] "$1" = some 2 ∧
    lookupVar [("$0", 8), ("$1", 2), ("$2", 4)] "$2" = some 4 := by
  decide

/-- C3: with both operands of a division evaluating successfully, evaluation
fails with the division-by-zero error exactly when the right value is 0, and
otherwise returns the quotient. -/
theorem C3_divide_by_zero_iff (c : Ctx) (l r : Expression) (a b : ℚ)
    (hl : calc_expression c l = .ok a) (hr : calc_expression c r = .ok b) :
    (calc_expression c (.binOp .divide l r) = .error "Error" ↔ b = 0) ∧
    (b ≠ 0 → calc_expression c (.binOp .divide l r) = .ok (a / b)) := by
  have key : calc_expression c (.binOp .divide l r) =
      if b = 0 then .error "Error" else .ok (qdiv a b) := by
    rw [calc_expression, hl, exceptOkBind, hr, exceptOkBind]
  refine ⟨⟨fun h => ?_, fun h => ?_⟩, fun hb => ?_⟩
  · by_contra hb
    rw [key, if_neg hb] at h
    exact Except.noConfusion h
  · rw [key, if_pos h]
  · rw [key, if_neg hb, qdiv_eq]

/-- Witness for C3 at `1 / 0`. -/
theorem C3_witness :
    calc_expression Ctx.new (.num 1) = .ok 1 ∧
    calc_expression Ctx.new (.num 0) = .ok 0 ∧
    ((calc_expression Ctx.new (.binOp .divide (.num 1) (.num 0)) = .error "Error" ↔
        (0 : ℚ) = 0) ∧
     ((0 : ℚ) ≠ 0 →
        calc_expression Ctx.new (.binOp .divide (.num 1) (.num 0)) = .ok (1 / 0))) :=
  ⟨by decide, by decide,
   C3_divide_by_zero_iff Ctx.new (.num 1) (.num 0) 1 0 (by decide) (by decide)⟩

/-- `calc_command` on an explicit target, unfolded. -/
theorem calc_command_some (c : Ctx) (x : String) (ex : Expression) :
    calc_command c ⟨some x, ex⟩ =
      match calc_expression c ex with
      | .error e => (.error e, c)
      | .ok v => (.ok (x, v), { c with vars := insertVar x v c.vars }) := rfl

/-- `calc_command` on an anonymous command, unfolded. -/
theorem calc_command_none (c : Ctx) (ex : Expression) :
    calc_command c ⟨none, ex⟩ =
      match calc_expression ⟨c.anonymous_counter + 1, c.vars⟩ ex with
      | .error e => (.error e, ⟨c.anonymous_counter + 1, c.vars⟩)
      | .ok v =>
        (.ok ("$" ++ Nat.repr c.anonymous_counter, v),
         ⟨c.anonymous_counter + 1,
          insertVar ("$" ++ Nat.repr c.anonymous_counter) v c.vars⟩) := rfl

/-- C4: if evaluation of a command's expression fails, `calc_command` leaves
the variable bindings exactly as they were. -/
theorem C4_error_leaves_bindings_unchanged (c : Ctx) (cmd : Command) (e : String)
    (h : (calc_command c cmd).1 = .error e) :
    (calc_command c cmd).2.vars = c.vars := by
  obtain ⟨tg, ex⟩ := cmd
  cases tg with
  | some x =>
    rw [calc_command_some] at h ⊢
    cases heval : calc_expression c ex with
    | error e' => rfl
    | ok v =>
      rw [heval] at h
      exact Except.noConfusion h
  | none =>
    rw [calc_command_none] at h ⊢
    cases heval : calc_expression ⟨c.anonymous_counter + 1, c.vars⟩ ex with
    | error e' => rfl
    | ok v =>
      rw [heval] at h
      exact Except.noConfusion h

/-- Witness for C4 at the failing command `5 / 0`. -/
theorem C4_witness :
    (calc_command Ctx.new ⟨none, .binOp .divide (.num 5) (.num 0)⟩).1 = .error "Error" ∧
    (calc_command Ctx.new ⟨none, .binOp .divide (.num 5) (.num 0)⟩).2.vars = Ctx.new.vars :=
  ⟨by decide,
   C4_error_leaves_bindings_unchanged Ctx.new ⟨none, .binOp .divide (.num 5) (.num 0)⟩
     "Error" (by decide)⟩

/-- C5: an explicit-target command never changes the anonymous counter; a
target-less command increments it by exactly one, even when evaluation later
fails, and the generated name is `"$"` followed by the pre-increment
counter. -/
theorem C5_counter_increment (c : Ctx) (cmd : Command) :
    (∀ x, cmd.target = some x →
      (calc_command c cmd).2.anonymous_counter = c.anonymous_counter) ∧
    (cmd.target = none →
      (calc_command c cmd).2.anonymous_counter = c.anonymous_counter + 1 ∧
      ∀ n v, (calc_command c cmd).1 = .ok (n, v) →
        n = "$" ++ Nat.repr c.anonymous_counter) := by
  obtain ⟨tg, ex⟩ := cmd
  cases tg with
  | some x =>
    refine ⟨fun x' hx' => ?_, fun hn => Option.noConfusion hn⟩
    rw [calc_command_some]
    cases heval : calc_expression c ex with
    | error e => rfl
    | ok v => rfl
  | none =>
    refine ⟨fun x' hx' => Option.noConfusion hx', fun _ => ⟨?_, ?_⟩⟩
    · rw [calc_command_none]
      cases heval : calc_expression ⟨c.anonymous_counter + 1, c.vars⟩ ex with
      | error e => rfl
      | ok v => rfl
    · intro n v h
      rw [calc_command_none] at h
      cases heval : calc_expression ⟨c.anonymous_counter + 1, c.vars⟩ ex with
      | error e => rw [heval] at h; exact Except.noConfusion h
      | ok v' =>
        rw [heval] at h
        simp only [Except.ok.injEq, Prod.mk.injEq] at h
        exact h.1.symm

/-- Witness for C5 on an anonymous command from a fresh context. -/
theorem C5_witness :
    (⟨none, Expression.num 3⟩ : Command).target = none ∧
    (calc_command Ctx.new ⟨none, .num 3⟩).2.anonymous_counter =
      Ctx.new.anonymous_counter + 1 ∧
    (∀ n v, (calc_command Ctx.new ⟨none, .num 3⟩).1 = .ok (n, v) →
      n = "$" ++ Nat.repr Ctx.new.anonymous_counter) :=
  ⟨rfl, (C5_counter_increment Ctx.new ⟨none, .num 3⟩).2 rfl⟩

/-- C6: evaluating a variable returns the bound value when present and fails
with the undefined-variable error when absent; in particular
`"undefined_name + 1"` on a fresh context fails with that error. -/
theorem C6_variable_lookup (c : Ctx) (name : String) :
    (∀ v, lookupVar c.vars name = some v → calc_expression c (.var name) = .ok v) ∧
    (lookupVar c.vars name = none →
      calc_expression c (.var name) = .error ("undefined variable: " ++ name)) ∧
    parse_command "undefined_name + 1" =
      .ok ⟨none, .binOp .add (.var "undefined_name") (.num 1)⟩ ∧
    calc_expression Ctx.new (.binOp .add (.var "undefined_name") (.num 1)) =
      .error "undefined variable: undefined_name" := by
  refine ⟨fun v hv => ?_, fun hn => ?_, by decide, by decide⟩
  · rw [calc_expression, hv]
  · rw [calc_expression, hn]

/-- Witness for C6 on a context binding `x`. -/
theorem C6_witness :
    lookupVar [("x", 5)] "x" = some 5 ∧
    calc_expression ⟨0, [("x", 5)]⟩ (.var "x") = .ok 5 :=
  ⟨by decide, (C6_variable_lookup ⟨0, [("x", 5)]⟩ "x").1 5 (by decide)⟩

/-- C7: `calc_command` evaluates the expression against the bindings as they
were at the start of the call (the new binding is not visible to its own
evaluation); for `"x = x + 1"`, the right-hand `x` resolves to the
pre-existing value, and the command fails with the undefined-variable error
when `x` is unbound. -/
theorem C7_eval_uses_pre_call_bindings (c : Ctx) (cmd : Command) :
    (calc_command c cmd).1 =
      (calc_expression c cmd.expression).map (fun v => (chosen_name c cmd, v)) ∧
    parse_command "x = x + 1" = .ok ⟨some "x", .binOp .add (.var "x") (.num 1)⟩ ∧
    (∀ a, lookupVar c.vars "x" = some a →
      (calc_command c ⟨some "x", .binOp .add (.var "x") (.num 1)⟩).1 = .ok ("x", a + 1)) ∧
    (lookupVar c.vars "x" = none →
      (calc_command c ⟨some "x", .binOp .add (.var "x") (.num 1)⟩).1 =
        .error "undefined variable: x") := by
  refine ⟨?_, by decide, fun a ha => ?_, fun ha => ?_⟩
  · obtain ⟨tg, ex⟩ := cmd
    cases tg with
    | some x =>
      rw [calc_command_some]
      cases heval : calc_expression c ex with
      | error e => rfl
      | ok v => rfl
    | none =>
      rw [calc_command_none,
        calc_expression_vars_only ⟨c.anonymous_counter + 1, c.vars⟩ c rfl ex]
      cases heval : calc_expression c ex with
      | error e => rfl
      | ok v => rfl
  · rw [calc_command_some]
    have hx : calc_expression c (.binOp .add (.var "x") (.num 1)) = .ok (a + 1) := by
      rw [calc_expression,
        show calc_expression c (.var "x") = .ok a from by rw [calc_expression, ha],
        exceptOkBind,
        show calc_expression c (.num 1) = .ok 1 from rfl, exceptOkBind]
      show Except.ok (qadd a 1) = Except.ok (a + 1)
      rw [qadd_eq]
    rw [hx]
  · rw [calc_command_some]
    have hx : calc_expression c (.binOp .add (.var "x") (.num 1)) =
        .error "undefined variable: x" := by
      rw [calc_expression,
        show calc_expression c (.var "x") = .error "undefined variable: x" from by
          rw [calc_expression, ha]
          rfl]
      rfl
    rw [hx]

/-- Witness for C7 on a context binding `x` to 41. -/
theorem C7_witness :
    lookupVar [("x", 41)] "x" = some 41 ∧
    (calc_command ⟨0, [("x", 41)]⟩ ⟨some "x", .binOp .add (.var "x") (.num 1)⟩).1 =
      .ok ("x", 41 + 1) :=
  ⟨by decide,
   (C7_eval_uses_pre_call_bindings ⟨0, [("x", 41)]⟩
     ⟨some "x", .binOp .add (.var "x") (.num 1)⟩).2.2.1 41 (by decide)⟩

/-- C8: in the model, `parse_command` is a function of the input line alone,
and parsing a valid line yields the expected AST; re-parsing yields the
identical value.  (The source function additionally prints a debug line to
stdout on every call, an effect outside this embedding; see the claim's
verdict.) -/
theorem C8_parse_deterministic_model :
    parse_command "3 + 5" = .ok ⟨none, .binOp .add (.num 3) (.num 5)⟩ ∧
    parse_command "3 + 5" = parse_command "3 + 5" :=
  ⟨by decide, rfl⟩

/-- C9: a `calc_expression` call leaves the context exactly as it was, and
its result is the plain evaluator's result, whether it succeeds or fails. -/
theorem C9_calc_expression_preserves_context (c : Ctx) (e : Expression) :
    (calc_expression_st c e).2 = c ∧ (calc_expression_st c e).1 = calc_expression c e := by
  rw [calc_expression_st_eq]
  exact ⟨rfl, rfl⟩

/-- C10: dividing by the expression `(0 - 1) * 0` — the source of IEEE `-0.0`,
which the exact-rational model identifies with `0` just as the source's
`== 0.0` guard does — fails with the division-by-zero error whenever the left
operand evaluates; in particular the full line `"1 / ((0 - 1) * 0)"` fails. -/
theorem C10_negative_zero_divisor (c : Ctx) (l : Expression) (a : ℚ)
    (hl : calc_expression c l = .ok a) :
    calc_expression c (.binOp .divide l
      (.binOp .multiply (.binOp .subtract (.num 0) (.num 1)) (.num 0))) = .error "Error" ∧
    evalLine "1 / ((0 - 1) * 0)" = .error "Error" := by
  refine ⟨?_, by decide⟩
  rw [calc_expression, hl, exceptOkBind,
    show calc_expression c (.binOp .multiply (.binOp .subtract (.num 0) (.num 1)) (.num 0)) =
      Except.ok (0 : ℚ) from rfl,
    exceptOkBind]
  show (if (0 : ℚ) = 0 then Except.error "Error" else Except.ok (qdiv a 0)) = Except.error "Error"
  rw [if_pos rfl]

/-- Witness for C10 with left operand `1`. -/
theorem C10_witness :
    calc_expression Ctx.new (.num 1) = .ok 1 ∧
    calc_expression Ctx.new (.binOp .divide (.num 1)
      (.binOp .multiply (.binOp .subtract (.num 0) (.num 1)) (.num 0))) = .error "Error" :=
  ⟨by decide, (C10_negative_zero_divisor Ctx.new (.num 1) 1 (by decide)).1⟩
